import Mathlib

/-!
Verification of the document mutation application engine
(`packages/firestore/src/model/mutation.ts`).

The engine is embedded shallowly: each TypeScript class becomes a Lean
inductive/structure, each method a Lean function.  Fatal assertions
(`assert`/`fail` in the source) are modelled with `Except String`, carrying
the source's assertion messages; the `null`-able document argument becomes
`Option MaybeDocument`.

External collaborators that are not part of the sample
(`document.ts`, `field_value.ts`, `snapshot_version.ts`, `path.ts`,
`document_key.ts`, `timestamp.ts`) are modelled from the spec, as noted on
each definition.
-/

namespace Firestore

/-- Modelled from the spec: `DocumentKey` is an "opaque, comparable identity
of a document" (`document_key.ts` is not part of the sample).  We use `Nat`. -/
abbrev DocumentKey := Nat

/-- Modelled from the spec: field paths are the opaque comparable keys of the
`ObjectValue` container (`path.ts` is not part of the sample).  We use `Nat`. -/
abbrev FieldPath := Nat

/-- Modelled from the spec: `Timestamp` only serves as the local write time
carried into server-timestamp placeholders (`timestamp.ts` is not part of the
sample).  We use `Nat`. -/
abbrev Timestamp := Nat

/-- Modelled from the spec: `SnapshotVersion` is a totally ordered logical
timestamp with a minimum sentinel `MIN` and a distinct sentinel
(`forDeletedDoc`) marking client-only deletion, "which must compare distinctly
from `MIN`" (`snapshot_version.ts` is not part of the sample). -/
inductive SnapshotVersion where
  | version (t : Nat)
  | deletedSentinel
deriving DecidableEq

/-- The minimum sentinel version. -/
def SnapshotVersion.MIN : SnapshotVersion := .version 0

/-- The client-only deletion sentinel, distinct from `MIN`. -/
def SnapshotVersion.forDeletedDoc : SnapshotVersion := .deletedSentinel

/-- `SnapshotVersion.isEqual`. -/
def SnapshotVersion.isEqual (a b : SnapshotVersion) : Bool := a == b

/-- Modelled from the spec: field values stored in an `ObjectValue`
(`field_value.ts` is not part of the sample).  A server-timestamp placeholder
carries the local write time and the field's previous value when one exists
(`previousValue : FieldValue | null` in the source, split into two
constructors here so that equality stays derivable). -/
inductive FieldValue where
  | nullValue
  | integerValue (n : Int)
  | serverTimestampValue (localWriteTime : Timestamp) (previousValue : FieldValue)
  | serverTimestampValueNoPrev (localWriteTime : Timestamp)
deriving DecidableEq

/-- Builds a server-timestamp placeholder from an optional previous value,
mirroring `new ServerTimestampValue(localWriteTime, previousValue)` where
`previousValue` may be `null`. -/
def FieldValue.serverTimestamp (t : Timestamp) : Option FieldValue → FieldValue
  | some v => .serverTimestampValue t v
  | Option.none => .serverTimestampValueNoPrev t

/-! ### ObjectValue

Modelled from the spec: an "immutable field container keyed by dotted field
paths" supporting `field(path) -> value|absent`, `set`, `delete` and an
`EMPTY` constant (`field_value.ts` is not part of the sample).  It is
represented canonically as a key-sorted association list, so that
propositional equality coincides with pointwise equality of `field`. -/

/-- Association-list lookup: the value stored at path `p`, if any. -/
def entriesField (p : FieldPath) : List (FieldPath × FieldValue) → Option FieldValue
  | [] => Option.none
  | e :: rest => if e.1 = p then some e.2 else entriesField p rest

/-- Sorted insertion of a binding, replacing any existing binding for `p`. -/
def entriesSet (p : FieldPath) (v : FieldValue) :
    List (FieldPath × FieldValue) → List (FieldPath × FieldValue)
  | [] => [(p, v)]
  | e :: rest =>
    if p < e.1 then (p, v) :: e :: rest
    else if p = e.1 then (p, v) :: rest
    else e :: entriesSet p v rest

/-- Removal of the binding for `p`, if any. -/
def entriesDelete (p : FieldPath) (l : List (FieldPath × FieldValue)) :
    List (FieldPath × FieldValue) :=
  l.filter (fun e => e.1 != p)

/-- The canonical-representation invariant: keys strictly increase. -/
def EntriesSorted (l : List (FieldPath × FieldValue)) : Prop :=
  l.Pairwise (fun a b => a.1 < b.1)

theorem mem_entriesSet {x : FieldPath × FieldValue} {p : FieldPath}
    {v : FieldValue} {l : List (FieldPath × FieldValue)}
    (h : x ∈ entriesSet p v l) : x = (p, v) ∨ x ∈ l := by
  induction l with
  | nil =>
    simp only [entriesSet, List.mem_singleton] at h
    exact Or.inl h
  | cons e rest ih =>
    simp only [entriesSet] at h
    by_cases h1 : p < e.1
    · rw [if_pos h1] at h
      rcases List.mem_cons.mp h with h | h
      · exact Or.inl h
      · exact Or.inr h
    · rw [if_neg h1] at h
      by_cases h2 : p = e.1
      · rw [if_pos h2] at h
        rcases List.mem_cons.mp h with h | h
        · exact Or.inl h
        · exact Or.inr (List.mem_cons_of_mem e h)
      · rw [if_neg h2] at h
        rcases List.mem_cons.mp h with h | h
        · exact Or.inr (by rw [h]; exact List.mem_cons_self e rest)
        · rcases ih h with h | h
          · exact Or.inl h
          · exact Or.inr (List.mem_cons_of_mem e h)

theorem entriesSet_sorted {p : FieldPath} {v : FieldValue}
    {l : List (FieldPath × FieldValue)} (hs : EntriesSorted l) :
    EntriesSorted (entriesSet p v l) := by
  induction l with
  | nil =>
    simp only [entriesSet, EntriesSorted]
    exact List.pairwise_singleton _ _
  | cons e rest ih =>
    simp only [EntriesSorted, List.pairwise_cons] at hs
    obtain ⟨he, hrest⟩ := hs
    simp only [EntriesSorted, entriesSet]
    by_cases h1 : p < e.1
    · rw [if_pos h1]
      refine List.Pairwise.cons ?_ (List.Pairwise.cons he hrest)
      intro x hx
      rcases List.mem_cons.mp hx with hx | hx
      · show p < x.1
        rw [hx]
        exact h1
      · show p < x.1
        have hex : e.1 < x.1 := he x hx
        exact lt_trans h1 hex
    · rw [if_neg h1]
      by_cases h2 : p = e.1
      · rw [if_pos h2]
        refine List.Pairwise.cons ?_ hrest
        intro x hx
        show p < x.1
        rw [h2]
        exact he x hx
      · rw [if_neg h2]
        refine List.Pairwise.cons ?_ (ih hrest)
        intro x hx
        show e.1 < x.1
        rcases mem_entriesSet hx with hx | hx
        · rw [hx]
          show e.1 < p
          exact lt_of_le_of_ne (Nat.le_of_not_lt h1) (fun hc => h2 hc.symm)
        · exact he x hx

theorem entriesDelete_sorted {p : FieldPath} {l : List (FieldPath × FieldValue)}
    (hs : EntriesSorted l) : EntriesSorted (entriesDelete p l) :=
  hs.sublist (List.filter_sublist l)

theorem entriesField_set_self (p : FieldPath) (v : FieldValue)
    (l : List (FieldPath × FieldValue)) :
    entriesField p (entriesSet p v l) = some v := by
  induction l with
  | nil => simp [entriesSet, entriesField]
  | cons e rest ih =>
    simp only [entriesSet]
    by_cases h1 : p < e.1
    · rw [if_pos h1]
      simp [entriesField]
    · rw [if_neg h1]
      by_cases h2 : p = e.1
      · rw [if_pos h2]
        simp [entriesField]
      · rw [if_neg h2]
        have hne : ¬ e.1 = p := fun h => h2 h.symm
        simp only [entriesField]
        rw [if_neg hne]
        exact ih

theorem entriesField_set_ne {q p : FieldPath} (hqp : q ≠ p) (v : FieldValue)
    (l : List (FieldPath × FieldValue)) :
    entriesField q (entriesSet p v l) = entriesField q l := by
  have hpq : ¬ p = q := fun h => hqp h.symm
  induction l with
  | nil =>
    simp only [entriesSet, entriesField]
    rw [if_neg hpq]
  | cons e rest ih =>
    simp only [entriesSet]
    by_cases h1 : p < e.1
    · rw [if_pos h1]
      simp only [entriesField]
      rw [if_neg hpq]
    · rw [if_neg h1]
      by_cases h2 : p = e.1
      · rw [if_pos h2]
        have h3 : ¬ e.1 = q := by rw [← h2]; exact hpq
        simp only [entriesField]
        rw [if_neg hpq, if_neg h3]
      · rw [if_neg h2]
        simp only [entriesField]
        by_cases h3 : e.1 = q
        · rw [if_pos h3, if_pos h3]
        · rw [if_neg h3, if_neg h3]
          exact ih

theorem entriesField_delete_self (p : FieldPath)
    (l : List (FieldPath × FieldValue)) :
    entriesField p (entriesDelete p l) = Option.none := by
  induction l with
  | nil => rfl
  | cons e rest ih =>
    simp only [entriesDelete, List.filter_cons] at ih ⊢
    by_cases h : e.1 = p
    · have hcond : ¬ ((e.1 != p) = true) := by simp [h]
      rw [if_neg hcond]
      exact ih
    · have hcond : (e.1 != p) = true := by simpa using h
      rw [if_pos hcond]
      simp only [entriesField]
      rw [if_neg h]
      exact ih

theorem entriesField_delete_ne {q p : FieldPath} (hqp : q ≠ p)
    (l : List (FieldPath × FieldValue)) :
    entriesField q (entriesDelete p l) = entriesField q l := by
  induction l with
  | nil => rfl
  | cons e rest ih =>
    simp only [entriesDelete, List.filter_cons] at ih ⊢
    by_cases h : e.1 = p
    · have hcond : ¬ ((e.1 != p) = true) := by simp [h]
      rw [if_neg hcond, ih]
      have h2 : ¬ e.1 = q := by rw [h]; exact fun hc => hqp hc.symm
      simp only [entriesField]
      rw [if_neg h2]
    · have hcond : (e.1 != p) = true := by simpa using h
      rw [if_pos hcond]
      simp only [entriesField]
      by_cases h2 : e.1 = q
      · rw [if_pos h2, if_pos h2]
      · rw [if_neg h2, if_neg h2]
        exact ih

theorem entriesField_eq_none {p : FieldPath} {l : List (FieldPath × FieldValue)}
    (h : ∀ e ∈ l, e.1 ≠ p) : entriesField p l = Option.none := by
  induction l with
  | nil => simp [entriesField]
  | cons e rest ih =>
    have he : ¬ e.1 = p := h e (by simp)
    simp only [entriesField]
    rw [if_neg he]
    exact ih fun x hx => h x (by simp [hx])

theorem entries_ext : ∀ {l₁ l₂ : List (FieldPath × FieldValue)},
    EntriesSorted l₁ → EntriesSorted l₂ →
    (∀ p, entriesField p l₁ = entriesField p l₂) → l₁ = l₂ := by
  intro l₁
  induction l₁ with
  | nil =>
    intro l₂ _ _ h
    cases l₂ with
    | nil => rfl
    | cons f rest₂ =>
      have h1 := h f.1
      simp [entriesField] at h1
  | cons e rest ih =>
    intro l₂ hs₁ hs₂ h
    cases l₂ with
    | nil =>
      have h1 := h e.1
      simp [entriesField] at h1
    | cons f rest₂ =>
      simp only [EntriesSorted, List.pairwise_cons] at hs₁ hs₂
      obtain ⟨he, hrest⟩ := hs₁
      obtain ⟨hf, hrest₂⟩ := hs₂
      have hkey : e.1 = f.1 := by
        rcases Nat.lt_trichotomy e.1 f.1 with hc | hc | hc
        · exfalso
          have h1 := h e.1
          have hL : entriesField e.1 (e :: rest) = some e.2 := by
            simp [entriesField]
          have hR : entriesField e.1 (f :: rest₂) = Option.none := by
            refine entriesField_eq_none fun x hx => ?_
            rcases List.mem_cons.mp hx with hx | hx
            · rw [hx]
              exact ne_of_gt hc
            · have hfx : f.1 < x.1 := hf x hx
              exact ne_of_gt (lt_trans hc hfx)
          rw [hL, hR] at h1
          exact Option.noConfusion h1
        · exact hc
        · exfalso
          have h1 := h f.1
          have hL : entriesField f.1 (e :: rest) = Option.none := by
            refine entriesField_eq_none fun x hx => ?_
            rcases List.mem_cons.mp hx with hx | hx
            · rw [hx]
              exact ne_of_gt hc
            · have hex : e.1 < x.1 := he x hx
              exact ne_of_gt (lt_trans hc hex)
          have hR : entriesField f.1 (f :: rest₂) = some f.2 := by
            simp [entriesField]
          rw [hL, hR] at h1
          exact Option.noConfusion h1.symm
      have hval : e.2 = f.2 := by
        have h1 := h e.1
        have hL : entriesField e.1 (e :: rest) = some e.2 := by
          simp [entriesField]
        have hR : entriesField e.1 (f :: rest₂) = some f.2 := by
          simp [entriesField, hkey]
        rw [hL, hR] at h1
        exact Option.some.inj h1
      have htails : ∀ p, entriesField p rest = entriesField p rest₂ := by
        intro p
        by_cases hp : p = e.1
        · have hn₁ : entriesField p rest = Option.none := by
            refine entriesField_eq_none fun x hx => ?_
            have hex : e.1 < x.1 := he x hx
            rw [hp]
            exact ne_of_gt hex
          have hn₂ : entriesField p rest₂ = Option.none := by
            refine entriesField_eq_none fun x hx => ?_
            have hfx : f.1 < x.1 := hf x hx
            rw [hp, hkey]
            exact ne_of_gt hfx
          rw [hn₁, hn₂]
        · have h1 := h p
          have hne : ¬ e.1 = p := fun hc => hp hc.symm
          have hnf : ¬ f.1 = p := by rw [← hkey]; exact hne
          simp only [entriesField] at h1
          rw [if_neg hne, if_neg hnf] at h1
          exact h1
      have hef : e = f := by
        cases e
        cases f
        simp only at hkey hval
        rw [hkey, hval]
      rw [hef, ih hrest hrest₂ htails]

/-- Modelled from the spec: `ObjectValue`, canonically represented. -/
structure ObjectValue where
  entries : List (FieldPath × FieldValue)
  sorted : EntriesSorted entries

instance : DecidableEq ObjectValue := fun a b =>
  if h : a.entries = b.entries then
    isTrue (by
      obtain ⟨e₁, s₁⟩ := a
      obtain ⟨e₂, s₂⟩ := b
      have h' : e₁ = e₂ := h
      subst h'
      rfl)
  else
    isFalse (fun he => h (congrArg ObjectValue.entries he))

/-- `ObjectValue.EMPTY`. -/
def ObjectValue.EMPTY : ObjectValue := ⟨[], List.Pairwise.nil⟩

/-- `ObjectValue.field(path)`. -/
def ObjectValue.field (o : ObjectValue) (p : FieldPath) : Option FieldValue :=
  entriesField p o.entries

/-- `ObjectValue.set(path, value)`. -/
def ObjectValue.set (o : ObjectValue) (p : FieldPath) (v : FieldValue) : ObjectValue :=
  ⟨entriesSet p v o.entries, entriesSet_sorted o.sorted⟩

/-- `ObjectValue.delete(path)`. -/
def ObjectValue.delete (o : ObjectValue) (p : FieldPath) : ObjectValue :=
  ⟨entriesDelete p o.entries, entriesDelete_sorted o.sorted⟩

theorem ObjectValue.field_set_self (o : ObjectValue) (p : FieldPath) (v : FieldValue) :
    (o.set p v).field p = some v :=
  entriesField_set_self p v o.entries

theorem ObjectValue.field_set_ne (o : ObjectValue) {q p : FieldPath} (h : q ≠ p)
    (v : FieldValue) : (o.set p v).field q = o.field q :=
  entriesField_set_ne h v o.entries

theorem ObjectValue.field_delete_self (o : ObjectValue) (p : FieldPath) :
    (o.delete p).field p = Option.none :=
  entriesField_delete_self p o.entries

theorem ObjectValue.field_delete_ne (o : ObjectValue) {q p : FieldPath} (h : q ≠ p) :
    (o.delete p).field q = o.field q :=
  entriesField_delete_ne h o.entries

theorem ObjectValue.ext_field {a b : ObjectValue}
    (h : ∀ p, a.field p = b.field p) : a = b := by
  obtain ⟨e₁, s₁⟩ := a
  obtain ⟨e₂, s₂⟩ := b
  have h' : e₁ = e₂ := entries_ext s₁ s₂ h
  subst h'
  rfl

/-! ### Generic sequences of set/delete operations

Both `PatchMutation.patchObject` and `TransformMutation.transformObject` are
left folds of per-path `set`/`delete` steps over an `ObjectValue`.  We factor
that shape out: an operation `(p, some v)` sets `p` to `v`, an operation
`(p, none)` deletes `p`. -/

/-- Apply a single set/delete operation. -/
def applyOp (o : ObjectValue) (op : FieldPath × Option FieldValue) : ObjectValue :=
  match op.2 with
  | some v => o.set op.1 v
  | Option.none => o.delete op.1

/-- Apply a sequence of set/delete operations, left to right. -/
def applyOps (ops : List (FieldPath × Option FieldValue)) (o : ObjectValue) : ObjectValue :=
  ops.foldl applyOp o

/-- The last operation in `ops` touching path `p`, if any. -/
def lastOp (p : FieldPath) : List (FieldPath × Option FieldValue) → Option (Option FieldValue)
  | [] => Option.none
  | e :: rest =>
    match lastOp p rest with
    | some r => some r
    | Option.none => if e.1 = p then some e.2 else Option.none

theorem field_applyOp (o : ObjectValue) (op : FieldPath × Option FieldValue)
    (q : FieldPath) :
    (applyOp o op).field q = if op.1 = q then op.2 else o.field q := by
  obtain ⟨p, ov⟩ := op
  by_cases h : p = q
  · subst h
    cases ov with
    | none => simp [applyOp, ObjectValue.field_delete_self]
    | some v => simp [applyOp, ObjectValue.field_set_self]
  · have hqp : q ≠ p := fun hc => h hc.symm
    cases ov with
    | none => simp [applyOp, h, ObjectValue.field_delete_ne _ hqp]
    | some v => simp [applyOp, h, ObjectValue.field_set_ne _ hqp]

theorem field_applyOps (ops : List (FieldPath × Option FieldValue)) :
    ∀ (o : ObjectValue) (q : FieldPath),
      (applyOps ops o).field q = (lastOp q ops).getD (o.field q) := by
  induction ops with
  | nil => intro o q; rfl
  | cons e rest ih =>
    intro o q
    simp only [applyOps, List.foldl_cons] at ih ⊢
    rw [ih (applyOp o e) q]
    simp only [lastOp]
    cases hl : lastOp q rest with
    | some r => simp
    | none =>
      simp only [Option.getD_none]
      rw [field_applyOp]
      by_cases h : e.1 = q
      · simp [h]
      · simp [h]

theorem applyOps_idem (ops : List (FieldPath × Option FieldValue)) (o : ObjectValue) :
    applyOps ops (applyOps ops o) = applyOps ops o := by
  refine ObjectValue.ext_field fun q => ?_
  rw [field_applyOps, field_applyOps]
  cases hl : lastOp q ops with
  | some r => simp
  | none => simp

/-! ### The entities of `mutation.ts` -/

/-- `FieldMask`: an ordered sequence of field paths. -/
structure FieldMask where
  fields : List FieldPath
deriving DecidableEq

/-- `FieldMask.isEqual`: `misc.arrayEquals(this.fields, other.fields)`. -/
def FieldMask.isEqual (a b : FieldMask) : Bool := a.fields == b.fields

/-- `TransformOperation`: the single supported variant is
`ServerTimestampTransform` (a stateless singleton). -/
inductive TransformOperation where
  | serverTimestampTransform
deriving DecidableEq

/-- `ServerTimestampTransform.isEqual`: kind-based equality. -/
def TransformOperation.isEqual (a b : TransformOperation) : Bool := a == b

/-- `FieldTransform`: a field path and the transform to perform upon it. -/
structure FieldTransform where
  field : FieldPath
  transform : TransformOperation
deriving DecidableEq

/-- `FieldTransform.isEqual`. -/
def FieldTransform.isEqual (a b : FieldTransform) : Bool :=
  a.field == b.field && a.transform.isEqual b.transform

/-- `MutationResult`: the server acknowledgment — the commit version (`null`
for a delete) and, for transform mutations only, the computed field values. -/
structure MutationResult where
  version : Option SnapshotVersion
  transformResults : Option (List FieldValue)
deriving DecidableEq

/-- `Precondition`: `{None, Exists(bool), UpdateTime(SnapshotVersion)}`.  The
source stores two optional fields with the invariant that at most one is
defined; the tagged union realises that invariant by construction. -/
inductive Precondition where
  | none
  | exists_ (flag : Bool)
  | updateTime (version : SnapshotVersion)
deriving DecidableEq

/-- The source's optional `updateTime` field of a `Precondition`. -/
def Precondition.updateTimeField : Precondition → Option SnapshotVersion
  | .updateTime v => some v
  | _ => Option.none

/-- The source's optional `exists` field of a `Precondition`. -/
def Precondition.existsField : Precondition → Option Bool
  | .exists_ b => some b
  | _ => Option.none

/-- `Precondition.isNone`. -/
def Precondition.isNone (p : Precondition) : Bool :=
  p.updateTimeField == Option.none && p.existsField == Option.none

/-- `Precondition.isEqual`:
`misc.equals(this.updateTime, other.updateTime) && this.exists === other.exists`. -/
def Precondition.isEqual (a b : Precondition) : Bool :=
  a.updateTimeField == b.updateTimeField && a.existsField == b.existsField

/-- Modelled from the spec: `MaybeDocument` is "a tagged union of exactly two
shapes": `Document(key, version, data, hasLocalMutations)` and
`NoDocument(key, version)` (`document.ts` is not part of the sample); the
absence of knowledge (`null`) is `Option.none` at use sites. -/
inductive MaybeDocument where
  | doc (key : DocumentKey) (version : SnapshotVersion) (data : ObjectValue)
      (hasLocalMutations : Bool)
  | noDoc (key : DocumentKey) (version : SnapshotVersion)
deriving DecidableEq

/-- The key of either shape of `MaybeDocument`. -/
def MaybeDocument.key : MaybeDocument → DocumentKey
  | .doc k _ _ _ => k
  | .noDoc k _ => k

/-- `Precondition.isValidFor(maybeDoc)`, mirroring the source's branch order:
the `updateTime` constraint first, then the `exists` flag, else always valid. -/
def Precondition.isValidFor : Precondition → Option MaybeDocument → Bool
  | .updateTime v, some (.doc _ ver _ _) => ver.isEqual v
  | .updateTime _, _ => false
  | .exists_ true, some (.doc _ _ _ _) => true
  | .exists_ true, _ => false
  | .exists_ false, Option.none => true
  | .exists_ false, some (.noDoc _ _) => true
  | .exists_ false, some (.doc _ _ _ _) => false
  | .none, _ => true

/-- `Mutation`: the closed variant set `{Set, Patch, Transform, Delete}`.  A
`TransformMutation` carries no stored precondition: the source hard-codes
`Precondition.exists(true)` for it (see `Mutation.precondition`). -/
inductive Mutation where
  | set (key : DocumentKey) (value : ObjectValue) (precondition : Precondition)
  | patch (key : DocumentKey) (data : ObjectValue) (fieldMask : FieldMask)
      (precondition : Precondition)
  | transform (key : DocumentKey) (fieldTransforms : List FieldTransform)
  | delete (key : DocumentKey) (precondition : Precondition)
deriving DecidableEq

/-- The precondition of a mutation; fixed to `Exists(true)` for transforms. -/
def Mutation.precondition : Mutation → Precondition
  | .set _ _ p => p
  | .patch _ _ _ p => p
  | .transform _ _ => .exists_ true
  | .delete _ p => p

/-- `Mutation.verifyKeyMatches`, as a boolean check: a non-absent input must
carry the mutation's key (a fatal assertion in the source). -/
def verifyKeyMatches (key : DocumentKey) : Option MaybeDocument → Bool
  | Option.none => true
  | some d => d.key == key

/-- `Mutation.getPostMutationVersion`: the existing document's version if the
input is a `Document`, else `SnapshotVersion.MIN`. -/
def getPostMutationVersion : Option MaybeDocument → SnapshotVersion
  | some (.doc _ v _ _) => v
  | _ => SnapshotVersion.MIN

/-- `PatchMutation.patchObject`: for each field path in the mask, in mask
order, set it to the candidate value when present, else delete it. -/
def patchObject (data : ObjectValue) (fieldMask : FieldMask) (obj : ObjectValue) :
    ObjectValue :=
  fieldMask.fields.foldl
    (fun acc fieldPath =>
      match data.field fieldPath with
      | some newValue => acc.set fieldPath newValue
      | Option.none => acc.delete fieldPath)
    obj

/-- `PatchMutation.patchDocument`: patch the existing document's data when the
input is a `Document`, else start from `ObjectValue.EMPTY`. -/
def patchDocument (data : ObjectValue) (fieldMask : FieldMask)
    (maybeDoc : Option MaybeDocument) : ObjectValue :=
  patchObject data fieldMask
    (match maybeDoc with
     | some (.doc _ _ d _) => d
     | _ => ObjectValue.EMPTY)

/-- `TransformMutation.requireDocument`: assert the input is a `Document` with
the mutation's key, yielding its version and data. -/
def requireDocument (key : DocumentKey) (maybeDoc : Option MaybeDocument) :
    Except String (SnapshotVersion × ObjectValue) :=
  match maybeDoc with
  | some (.doc k v d _) =>
    if k == key then .ok (v, d)
    else .error "Can only transform a document with the same key"
  | _ => .error "Unknown MaybeDocument type"

/-- `TransformMutation.localTransformResults`: one locally synthesized
server-timestamp placeholder per field transform, carrying the local write
time and the field's previous value looked up in `baseDoc` when it is a
`Document` (`baseDoc.field(...) || null` in the source). -/
def localTransformResults (fieldTransforms : List FieldTransform)
    (localWriteTime : Timestamp) (baseDoc : Option MaybeDocument) :
    List FieldValue :=
  fieldTransforms.map fun fieldTransform =>
    FieldValue.serverTimestamp localWriteTime
      (match baseDoc with
       | some (.doc _ _ d _) => d.field fieldTransform.field
       | _ => Option.none)

/-- `TransformMutation.transformObject`: assert the result list has the same
length as `fieldTransforms` (fatal otherwise), then set each transform's field
to the corresponding result, in order. -/
def transformObject (fieldTransforms : List FieldTransform) (data : ObjectValue)
    (transformResults : List FieldValue) : Except String ObjectValue :=
  if transformResults.length = fieldTransforms.length then
    .ok ((fieldTransforms.zip transformResults).foldl
      (fun acc pr => acc.set pr.1.field pr.2) data)
  else .error "TransformResults length mismatch."

/-- `applyToRemoteDocument` of each variant (`SetMutation` lines 287-306,
`PatchMutation` lines 360-386, `TransformMutation` lines 467-494,
`DeleteMutation` lines 611-627 of `mutation.ts`). -/
def Mutation.applyToRemoteDocument (m : Mutation) (maybeDoc : Option MaybeDocument)
    (mutationResult : MutationResult) : Except String (Option MaybeDocument) :=
  match m with
  | .set key value _precondition =>
    if verifyKeyMatches key maybeDoc then
      match mutationResult.transformResults with
      | some _ => .error "Transform results received by SetMutation."
      | Option.none =>
        .ok (some (.doc key (getPostMutationVersion maybeDoc) value false))
    else .error "Can only apply a mutation to a document with the same key"
  | .patch key data fieldMask precondition =>
    if verifyKeyMatches key maybeDoc then
      match mutationResult.transformResults with
      | some _ => .error "Transform results received by PatchMutation."
      | Option.none =>
        if precondition.isValidFor maybeDoc then
          .ok (some (.doc key (getPostMutationVersion maybeDoc)
            (patchDocument data fieldMask maybeDoc) false))
        else .ok maybeDoc
    else .error "Can only apply a mutation to a document with the same key"
  | .transform key fieldTransforms =>
    if verifyKeyMatches key maybeDoc then
      match mutationResult.transformResults with
      | Option.none => .error "Transform results missing for TransformMutation."
      | some transformResults =>
        if (Precondition.exists_ true).isValidFor maybeDoc then
          match requireDocument key maybeDoc with
          | .error e => .error e
          | .ok (version, data) =>
            match transformObject fieldTransforms data transformResults with
            | .error e => .error e
            | .ok newData => .ok (some (.doc key version newData false))
        else .ok maybeDoc
    else .error "Can only apply a mutation to a document with the same key"
  | .delete key _precondition =>
    if verifyKeyMatches key maybeDoc then
      match mutationResult.transformResults with
      | some _ => .error "Transform results received by DeleteMutation."
      | Option.none => .ok (some (.noDoc key SnapshotVersion.MIN))
    else .error "Can only apply a mutation to a document with the same key"

/-- `applyToLocalView` of each variant (`SetMutation` lines 308-323,
`PatchMutation` lines 388-404, `TransformMutation` lines 496-516,
`DeleteMutation` lines 629-647 of `mutation.ts`).  The delete case keeps the
source's second, redundant key assertion. -/
def Mutation.applyToLocalView (m : Mutation) (maybeDoc baseDoc : Option MaybeDocument)
    (localWriteTime : Timestamp) : Except String (Option MaybeDocument) :=
  match m with
  | .set key value precondition =>
    if verifyKeyMatches key maybeDoc then
      if precondition.isValidFor maybeDoc then
        .ok (some (.doc key (getPostMutationVersion maybeDoc) value true))
      else .ok maybeDoc
    else .error "Can only apply a mutation to a document with the same key"
  | .patch key data fieldMask precondition =>
    if verifyKeyMatches key maybeDoc then
      if precondition.isValidFor maybeDoc then
        .ok (some (.doc key (getPostMutationVersion maybeDoc)
          (patchDocument data fieldMask maybeDoc) true))
      else .ok maybeDoc
    else .error "Can only apply a mutation to a document with the same key"
  | .transform key fieldTransforms =>
    if verifyKeyMatches key maybeDoc then
      if (Precondition.exists_ true).isValidFor maybeDoc then
        match requireDocument key maybeDoc with
        | .error e => .error e
        | .ok (version, data) =>
          match transformObject fieldTransforms data
              (localTransformResults fieldTransforms localWriteTime baseDoc) with
          | .error e => .error e
          | .ok newData => .ok (some (.doc key version newData true))
      else .ok maybeDoc
    else .error "Can only apply a mutation to a document with the same key"
  | .delete key precondition =>
    if verifyKeyMatches key maybeDoc then
      if precondition.isValidFor maybeDoc then
        if verifyKeyMatches key maybeDoc then
          .ok (some (.noDoc key SnapshotVersion.forDeletedDoc))
        else .error "Can only apply mutation to document with same key"
      else .ok maybeDoc
    else .error "Can only apply a mutation to a document with the same key"

/-- `isEqual` of each variant.  NOTE: the `patch` case mirrors
`PatchMutation.isEqual` (lines 406-413), which compares key, field mask and
precondition but not `data`. -/
def Mutation.isEqual : Mutation → Mutation → Bool
  | .set key value precondition, .set key2 value2 precondition2 =>
    key == key2 && value == value2 && precondition.isEqual precondition2
  | .patch key _data fieldMask precondition, .patch key2 _data2 fieldMask2 precondition2 =>
    key == key2 && fieldMask.isEqual fieldMask2 && precondition.isEqual precondition2
  | .transform key fieldTransforms, .transform key2 fieldTransforms2 =>
    key == key2 && fieldTransforms == fieldTransforms2 &&
      Precondition.isEqual (.exists_ true) (.exists_ true)
  | .delete key precondition, .delete key2 precondition2 =>
    key == key2 && precondition.isEqual precondition2
  | _, _ => false

instance {ε α : Type} [DecidableEq ε] [DecidableEq α] : DecidableEq (Except ε α) :=
  fun a b =>
    match a, b with
    | .error e, .error f =>
      if h : e = f then isTrue (by rw [h])
      else isFalse fun hc => h (by cases hc; rfl)
    | .ok x, .ok y =>
      if h : x = y then isTrue (by rw [h])
      else isFalse fun hc => h (by cases hc; rfl)
    | .error _, .ok _ => isFalse fun hc => Except.noConfusion hc
    | .ok _, .error _ => isFalse fun hc => Except.noConfusion hc

/-! ### Bridging lemmas: the patch and transform folds as `applyOps` -/

theorem patchFields_eq_applyOps (data : ObjectValue) (fields : List FieldPath) :
    ∀ obj : ObjectValue,
      List.foldl
        (fun acc fieldPath =>
          match data.field fieldPath with
          | some newValue => acc.set fieldPath newValue
          | Option.none => acc.delete fieldPath)
        obj fields =
      applyOps (fields.map fun p => (p, data.field p)) obj := by
  induction fields with
  | nil => intro obj; rfl
  | cons p rest ih =>
    intro obj
    simp only [List.map_cons, applyOps, List.foldl_cons] at ih ⊢
    rw [ih]
    congr 1

theorem patchObject_eq_applyOps (data : ObjectValue) (mask : FieldMask)
    (obj : ObjectValue) :
    patchObject data mask obj =
      applyOps (mask.fields.map fun p => (p, data.field p)) obj := by
  simp only [patchObject]
  exact patchFields_eq_applyOps data mask.fields obj

theorem patchObject_idem (data : ObjectValue) (mask : FieldMask) (obj : ObjectValue) :
    patchObject data mask (patchObject data mask obj) = patchObject data mask obj := by
  rw [patchObject_eq_applyOps, patchObject_eq_applyOps]
  exact applyOps_idem _ obj

theorem lastOp_map_field (data : ObjectValue) (q : FieldPath) (fields : List FieldPath) :
    lastOp q (fields.map fun p => (p, data.field p)) =
      if q ∈ fields then some (data.field q) else Option.none := by
  induction fields with
  | nil => simp [lastOp]
  | cons p rest ih =>
    simp only [List.map_cons, lastOp, ih]
    by_cases hq : q ∈ rest
    · simp [hq, List.mem_cons]
    · by_cases hpq : p = q
      · subst hpq
        simp [hq, List.mem_cons]
      · have hqp : ¬ q = p := fun hc => hpq hc.symm
        simp [hq, hpq, hqp, List.mem_cons]

theorem patchObject_field_not_mem (data : ObjectValue) (mask : FieldMask)
    (obj : ObjectValue) {q : FieldPath} (h : q ∉ mask.fields) :
    (patchObject data mask obj).field q = obj.field q := by
  rw [patchObject_eq_applyOps, field_applyOps, lastOp_map_field]
  simp [h]

theorem patchObject_congr_data {data data' : ObjectValue} (mask : FieldMask)
    (h : ∀ p ∈ mask.fields, data.field p = data'.field p) (obj : ObjectValue) :
    patchObject data mask obj = patchObject data' mask obj := by
  obtain ⟨fields⟩ := mask
  simp only [patchObject] at *
  induction fields generalizing obj with
  | nil => rfl
  | cons p rest ih =>
    simp only [List.foldl_cons]
    rw [h p (by simp)]
    exact ih _ fun x hx => h x (by simp [hx])

theorem transformFold_eq_applyOps (pairs : List (FieldTransform × FieldValue)) :
    ∀ data : ObjectValue,
      pairs.foldl (fun acc pr => acc.set pr.1.field pr.2) data =
        applyOps (pairs.map fun pr => (pr.1.field, some pr.2)) data := by
  induction pairs with
  | nil => intro data; rfl
  | cons pr rest ih =>
    intro data
    simp only [List.map_cons, applyOps, List.foldl_cons] at ih ⊢
    rw [ih]
    rfl

theorem transformObject_idem {fieldTransforms : List FieldTransform}
    {data newData : ObjectValue} {transformResults : List FieldValue}
    (h : transformObject fieldTransforms data transformResults = .ok newData) :
    transformObject fieldTransforms newData transformResults = .ok newData := by
  by_cases hl : transformResults.length = fieldTransforms.length
  · simp only [transformObject, hl, if_pos] at h ⊢
    have hn := Except.ok.inj h
    rw [← hn]
    rw [transformFold_eq_applyOps, transformFold_eq_applyOps]
    rw [applyOps_idem]
  · simp only [transformObject] at h
    rw [if_neg hl] at h
    exact Except.noConfusion h

/-- Modelled from the spec: the reference patch computation of §4.4.2, stated
independently of the implementation — "for each field path in the mask, in
mask order: if `data.field(path)` is present, set it on the base object;
otherwise delete that path from the base object". -/
def patchSpecRef (data : ObjectValue) : List FieldPath → ObjectValue → ObjectValue
  | [], base => base
  | p :: rest, base =>
    patchSpecRef data rest
      (match data.field p with
       | some v => base.set p v
       | Option.none => base.delete p)

theorem patchObject_eq_patchSpecRef (data : ObjectValue) (mask : FieldMask) :
    ∀ obj, patchObject data mask obj = patchSpecRef data mask.fields obj := by
  obtain ⟨fields⟩ := mask
  simp only [patchObject]
  induction fields with
  | nil => intro obj; rfl
  | cons p rest ih =>
    intro obj
    simp only [List.foldl_cons, patchSpecRef]
    exact ih _

/-! ### Claim theorems -/

/-- C9: `Precondition.isValidFor` returns: for `UpdateTime(v)`, true iff the
input is a `Document` whose version equals `v` exactly; for `Exists(true)`,
true iff the input is a `Document`; for `Exists(false)`, true iff the input is
absent or a `NoDocument`; and for `None`, true for every input. -/
theorem precondition_isValidFor_spec (md : Option MaybeDocument) (v : SnapshotVersion) :
    ((Precondition.updateTime v).isValidFor md = true ↔
      ∃ k d hlm, md = some (.doc k v d hlm)) ∧
    ((Precondition.exists_ true).isValidFor md = true ↔
      ∃ k ver d hlm, md = some (.doc k ver d hlm)) ∧
    ((Precondition.exists_ false).isValidFor md = true ↔
      (md = Option.none ∨ ∃ k ver, md = some (.noDoc k ver))) ∧
    Precondition.none.isValidFor md = true := by
  refine ⟨?_, ?_, ?_, ?_⟩
  · cases md with
    | none => simp [Precondition.isValidFor]
    | some d =>
      cases d with
      | doc k ver dta hlm =>
        simp only [Precondition.isValidFor, SnapshotVersion.isEqual, beq_iff_eq,
          Option.some.injEq, MaybeDocument.doc.injEq]
        constructor
        · intro hv
          exact ⟨k, dta, hlm, rfl, hv, rfl, rfl⟩
        · rintro ⟨k2, d2, h2, hk2, hv2, hd2, hh2⟩
          exact hv2
      | noDoc k ver => simp [Precondition.isValidFor]
  · cases md with
    | none => simp [Precondition.isValidFor]
    | some d =>
      cases d with
      | doc k ver dta hlm =>
        constructor
        · intro _
          exact ⟨k, ver, dta, hlm, rfl⟩
        · intro _
          rfl
      | noDoc k ver => simp [Precondition.isValidFor]
  · cases md with
    | none => simp [Precondition.isValidFor]
    | some d =>
      cases d with
      | doc k ver dta hlm => simp [Precondition.isValidFor]
      | noDoc k ver =>
        constructor
        · intro _
          exact Or.inr ⟨k, ver, rfl⟩
        · intro _
          rfl
  · cases md with
    | none => rfl
    | some d => cases d <;> rfl

/-- C9 witness: sample evaluations of the characterization. -/
theorem precondition_isValidFor_spec_witness :
    Precondition.none.isValidFor Option.none = true ∧
    (Precondition.exists_ false).isValidFor Option.none = true :=
  ⟨(precondition_isValidFor_spec Option.none SnapshotVersion.MIN).2.2.2,
   (precondition_isValidFor_spec Option.none SnapshotVersion.MIN).2.2.1.mpr
     (Or.inl rfl)⟩

/-- C1: for every input document and every `MutationResult` with absent
transform results, `SetMutation.applyToRemoteDocument` does not check the
precondition and returns `Document(key, v, value, hasLocalMutations = false)`
where `v` is the input's version if the input is a `Document` and `MIN`
otherwise; in particular on `NoDocument(v=3)` it yields
`Document(version = MIN, hasLocalMutations = false)`. -/
theorem setMutation_applyToRemoteDocument_spec :
    (∀ (key : DocumentKey) (value : ObjectValue) (pre : Precondition)
       (md : Option MaybeDocument) (res : MutationResult),
       verifyKeyMatches key md = true →
       res.transformResults = Option.none →
       Mutation.applyToRemoteDocument (.set key value pre) md res =
         .ok (some (.doc key
           (match md with
            | some (.doc _ ver _ _) => ver
            | _ => SnapshotVersion.MIN)
           value false))) ∧
    (∀ (key : DocumentKey) (value : ObjectValue) (pre : Precondition)
       (v : Option SnapshotVersion),
       Mutation.applyToRemoteDocument (.set key value pre)
         (some (.noDoc key (.version 3))) (.mk v Option.none) =
         .ok (some (.doc key SnapshotVersion.MIN value false))) := by
  constructor
  · intro key value pre md res hk ht
    cases md with
    | none =>
      simp [Mutation.applyToRemoteDocument, verifyKeyMatches, ht,
        getPostMutationVersion]
    | some d =>
      cases d with
      | doc k ver dta hlm =>
        simp [Mutation.applyToRemoteDocument, hk, ht, getPostMutationVersion]
      | noDoc k ver =>
        simp [Mutation.applyToRemoteDocument, hk, ht, getPostMutationVersion]
  · intro key value pre v
    simp [Mutation.applyToRemoteDocument, verifyKeyMatches, MaybeDocument.key,
      getPostMutationVersion]

/-- C1 witness: the general equation applied at a concrete no-document input. -/
theorem setMutation_applyToRemoteDocument_spec_witness :
    Mutation.applyToRemoteDocument (.set 1 ObjectValue.EMPTY .none)
      (some (.noDoc 1 (.version 3))) (.mk Option.none Option.none) =
      .ok (some (.doc 1 SnapshotVersion.MIN ObjectValue.EMPTY false)) :=
  setMutation_applyToRemoteDocument_spec.1 1 ObjectValue.EMPTY .none
    (some (.noDoc 1 (.version 3))) (.mk Option.none Option.none)
    (by decide) rfl

/-- C4: a `TransformMutation`'s precondition is `Exists(true)` regardless of
construction, and `applyToLocalView` returns an absent input, or a
`NoDocument` input, unchanged — it never synthesizes a `Document`. -/
theorem transformMutation_precondition_and_local_noop :
    (∀ (key : DocumentKey) (fts : List FieldTransform),
       (Mutation.transform key fts).precondition = Precondition.exists_ true) ∧
    (∀ (key : DocumentKey) (fts : List FieldTransform)
       (b : Option MaybeDocument) (t : Timestamp),
       Mutation.applyToLocalView (.transform key fts) Option.none b t =
         .ok Option.none) ∧
    (∀ (key : DocumentKey) (fts : List FieldTransform) (ver : SnapshotVersion)
       (b : Option MaybeDocument) (t : Timestamp),
       Mutation.applyToLocalView (.transform key fts) (some (.noDoc key ver)) b t =
         .ok (some (.noDoc key ver))) := by
  refine ⟨fun key fts => rfl, fun key fts b t => rfl, fun key fts ver b t => ?_⟩
  simp [Mutation.applyToLocalView, verifyKeyMatches, MaybeDocument.key,
    Precondition.isValidFor]

/-- C5 (code bug): `PatchMutation.isEqual` does not compare `data` — two patch
mutations with equal key, field mask and precondition but different candidate
data compare equal, contradicting structural equality over all
variant-specific fields. -/
theorem patchMutation_isEqual_ignores_data :
    Mutation.isEqual
        (.patch 1 (ObjectValue.EMPTY.set 0 (.integerValue 1)) (FieldMask.mk [0])
          .none)
        (.patch 1 (ObjectValue.EMPTY.set 0 (.integerValue 2)) (FieldMask.mk [0])
          .none) = true ∧
    ObjectValue.EMPTY.set 0 (FieldValue.integerValue 1) ≠
      ObjectValue.EMPTY.set 0 (.integerValue 2) := by
  constructor
  · decide
  · decide

/-- C6: `PatchMutation` re-checks its precondition on both the remote and the
local path; whenever the precondition is invalid for the input, both return
the input unchanged. -/
theorem patchMutation_precondition_rechecked :
    ∀ (key : DocumentKey) (data : ObjectValue) (mask : FieldMask)
      (pre : Precondition) (md : Option MaybeDocument) (res : MutationResult)
      (b : Option MaybeDocument) (t : Timestamp),
      verifyKeyMatches key md = true →
      res.transformResults = Option.none →
      pre.isValidFor md = false →
      Mutation.applyToRemoteDocument (.patch key data mask pre) md res = .ok md ∧
      Mutation.applyToLocalView (.patch key data mask pre) md b t = .ok md := by
  intro key data mask pre md res b t hk ht hv
  constructor
  · simp [Mutation.applyToRemoteDocument, hk, ht, hv]
  · simp [Mutation.applyToLocalView, hk, hv]

/-- C6 witness: an `Exists(true)` precondition fails on an absent input and
both paths leave it unchanged. -/
theorem patchMutation_precondition_rechecked_witness :
    Mutation.applyToRemoteDocument
        (.patch 0 ObjectValue.EMPTY (FieldMask.mk []) (.exists_ true))
        Option.none (.mk Option.none Option.none) = .ok Option.none ∧
    Mutation.applyToLocalView
        (.patch 0 ObjectValue.EMPTY (FieldMask.mk []) (.exists_ true))
        Option.none Option.none 0 = .ok Option.none :=
  patchMutation_precondition_rechecked 0 ObjectValue.EMPTY (FieldMask.mk [])
    (.exists_ true) Option.none (.mk Option.none Option.none) Option.none 0
    rfl rfl rfl

/-- C7: `TransformMutation.applyToRemoteDocument` fails fatally when transform
results are absent, and when they are present with a length different from
`fieldTransforms` (given a valid precondition); when the precondition is
invalid (absent or `NoDocument` input) it instead returns the input
unchanged. -/
theorem transformMutation_remote_assertions :
    (∀ (key : DocumentKey) (fts : List FieldTransform) (md : Option MaybeDocument)
       (v : Option SnapshotVersion),
       verifyKeyMatches key md = true →
       Mutation.applyToRemoteDocument (.transform key fts) md (.mk v Option.none) =
         .error "Transform results missing for TransformMutation.") ∧
    (∀ (key : DocumentKey) (fts : List FieldTransform) (ver : SnapshotVersion)
       (dta : ObjectValue) (hlm : Bool) (v : Option SnapshotVersion)
       (l : List FieldValue),
       l.length ≠ fts.length →
       Mutation.applyToRemoteDocument (.transform key fts)
         (some (.doc key ver dta hlm)) (.mk v (some l)) =
         .error "TransformResults length mismatch.") ∧
    (∀ (key : DocumentKey) (fts : List FieldTransform) (v : Option SnapshotVersion)
       (l : List FieldValue),
       Mutation.applyToRemoteDocument (.transform key fts) Option.none
         (.mk v (some l)) = .ok Option.none) ∧
    (∀ (key : DocumentKey) (fts : List FieldTransform) (ver : SnapshotVersion)
       (v : Option SnapshotVersion) (l : List FieldValue),
       Mutation.applyToRemoteDocument (.transform key fts)
         (some (.noDoc key ver)) (.mk v (some l)) =
         .ok (some (.noDoc key ver))) := by
  refine ⟨?_, ?_, ?_, ?_⟩
  · intro key fts md v hk
    simp [Mutation.applyToRemoteDocument, hk]
  · intro key fts ver dta hlm v l hlen
    simp [Mutation.applyToRemoteDocument, verifyKeyMatches, MaybeDocument.key,
      Precondition.isValidFor, requireDocument, transformObject, hlen]
  · intro key fts v l
    rfl
  · intro key fts ver v l
    simp [Mutation.applyToRemoteDocument, verifyKeyMatches, MaybeDocument.key,
      Precondition.isValidFor]

/-- C7 witness: both fatal assertions fire at concrete inputs. -/
theorem transformMutation_remote_assertions_witness :
    Mutation.applyToRemoteDocument
        (.transform 0 [FieldTransform.mk 5 .serverTimestampTransform])
        (some (.doc 0 (.version 1) ObjectValue.EMPTY false))
        (.mk Option.none Option.none) =
      .error "Transform results missing for TransformMutation." ∧
    Mutation.applyToRemoteDocument
        (.transform 0 [FieldTransform.mk 5 .serverTimestampTransform])
        (some (.doc 0 (.version 1) ObjectValue.EMPTY false))
        (.mk Option.none (some [])) =
      .error "TransformResults length mismatch." :=
  ⟨transformMutation_remote_assertions.1 0
      [FieldTransform.mk 5 .serverTimestampTransform]
      (some (.doc 0 (.version 1) ObjectValue.EMPTY false)) Option.none
      (by decide),
   transformMutation_remote_assertions.2.1 0
      [FieldTransform.mk 5 .serverTimestampTransform] (.version 1)
      ObjectValue.EMPTY false Option.none [] (by decide)⟩

/-- C10: `applyToRemoteDocument` never reads the `version` of the
`MutationResult` — two results with equal `transformResults` produce identical
outputs for every mutation and input. -/
theorem applyToRemoteDocument_ignores_result_version :
    ∀ (m : Mutation) (md : Option MaybeDocument) (r r2 : MutationResult),
      r.transformResults = r2.transformResults →
      Mutation.applyToRemoteDocument m md r =
        Mutation.applyToRemoteDocument m md r2 := by
  intro m md r r2 h
  obtain ⟨v, tr⟩ := r
  obtain ⟨v2, tr2⟩ := r2
  have h' : tr = tr2 := h
  subst h'
  cases m <;> rfl

/-- C10 witness: two acknowledgments differing only in version. -/
theorem applyToRemoteDocument_ignores_result_version_witness :
    Mutation.applyToRemoteDocument (.delete 0 .none) Option.none
        (.mk (some (.version 1)) Option.none) =
      Mutation.applyToRemoteDocument (.delete 0 .none) Option.none
        (.mk (some (.version 2)) Option.none) :=
  applyToRemoteDocument_ignores_result_version (.delete 0 .none) Option.none
    (.mk (some (.version 1)) Option.none) (.mk (some (.version 2)) Option.none)
    rfl

/-- C2: the patch result equals the spec's reference computation (base from
the existing document's data or `EMPTY`, then per-mask set-or-delete in mask
order); paths outside the mask keep their base value; candidate entries
outside the mask have no effect; and the two literal examples hold (paths `0`
and `1` play the roles of `a` and `b`, base `{a:1, b:2}`, mask `[a]`). -/
theorem patchMutation_patch_spec :
    (∀ (data : ObjectValue) (mask : FieldMask) (md : Option MaybeDocument),
       patchDocument data mask md =
         patchSpecRef data mask.fields
           (match md with
            | some (.doc _ _ d _) => d
            | _ => ObjectValue.EMPTY)) ∧
    (∀ (data : ObjectValue) (mask : FieldMask) (obj : ObjectValue) (q : FieldPath),
       q ∉ mask.fields → (patchObject data mask obj).field q = obj.field q) ∧
    (∀ (data data2 : ObjectValue) (mask : FieldMask) (obj : ObjectValue),
       (∀ p ∈ mask.fields, data.field p = data2.field p) →
       patchObject data mask obj = patchObject data2 mask obj) ∧
    (patchObject (ObjectValue.EMPTY.set 0 (.integerValue 9)) (FieldMask.mk [0])
       ((ObjectValue.EMPTY.set 0 (.integerValue 1)).set 1 (.integerValue 2)) =
     (ObjectValue.EMPTY.set 0 (.integerValue 9)).set 1 (.integerValue 2)) ∧
    (patchObject ObjectValue.EMPTY (FieldMask.mk [0])
       ((ObjectValue.EMPTY.set 0 (.integerValue 1)).set 1 (.integerValue 2)) =
     ObjectValue.EMPTY.set 1 (.integerValue 2)) := by
  refine ⟨?_, ?_, ?_, by decide, by decide⟩
  · intro data mask md
    simp only [patchDocument]
    exact patchObject_eq_patchSpecRef data mask _
  · intro data mask obj q hq
    exact patchObject_field_not_mem data mask obj hq
  · intro data data2 mask obj h
    exact patchObject_congr_data mask h obj

/-- C2 witness: the mask-locality statements at concrete inputs — field `1`
is untouched by a patch with mask `[0]`, and extending the candidate data
outside the mask leaves the patch result unchanged. -/
theorem patchMutation_patch_spec_witness :
    (patchObject (ObjectValue.EMPTY.set 0 (.integerValue 9)) (FieldMask.mk [0])
        ((ObjectValue.EMPTY.set 0 (.integerValue 1)).set 1 (.integerValue 2))).field 1 =
      ((ObjectValue.EMPTY.set 0 (.integerValue 1)).set 1 (.integerValue 2)).field 1 ∧
    patchObject (ObjectValue.EMPTY.set 0 (.integerValue 9)) (FieldMask.mk [0])
        ObjectValue.EMPTY =
      patchObject ((ObjectValue.EMPTY.set 0 (.integerValue 9)).set 1 (.integerValue 5))
        (FieldMask.mk [0]) ObjectValue.EMPTY :=
  ⟨patchMutation_patch_spec.2.1 (ObjectValue.EMPTY.set 0 (.integerValue 9))
      (FieldMask.mk [0])
      ((ObjectValue.EMPTY.set 0 (.integerValue 1)).set 1 (.integerValue 2)) 1
      (by decide),
   patchMutation_patch_spec.2.2.1 (ObjectValue.EMPTY.set 0 (.integerValue 9))
      ((ObjectValue.EMPTY.set 0 (.integerValue 9)).set 1 (.integerValue 5))
      (FieldMask.mk [0]) ObjectValue.EMPTY (by decide)⟩

/-- C3 counterexample: the claim quantifies over every `DeleteMutation` and
every prior state, but a delete with precondition `Exists(true)` applied
locally to an absent prior state returns the absent input, not
`NoDocument(key, deleted-sentinel)`. -/
theorem deleteMutation_local_counterexample :
    Mutation.applyToLocalView (.delete 0 (.exists_ true)) Option.none
        Option.none 0 ≠
      .ok (some (.noDoc 0 SnapshotVersion.forDeletedDoc)) := by
  decide

/-- C3 amended: `DeleteMutation.applyToRemoteDocument` returns
`NoDocument(key, MIN)` unconditionally (no precondition re-check);
`applyToLocalView` returns `NoDocument(key, deleted-sentinel)` whenever the
precondition is valid for the prior state and returns the prior state
unchanged otherwise; the deleted sentinel is distinct from `MIN`. -/
theorem deleteMutation_apply_spec :
    (∀ (key : DocumentKey) (pre : Precondition) (md : Option MaybeDocument)
       (res : MutationResult),
       verifyKeyMatches key md = true →
       res.transformResults = Option.none →
       Mutation.applyToRemoteDocument (.delete key pre) md res =
         .ok (some (.noDoc key SnapshotVersion.MIN))) ∧
    (∀ (key : DocumentKey) (pre : Precondition) (md b : Option MaybeDocument)
       (t : Timestamp),
       verifyKeyMatches key md = true →
       (pre.isValidFor md = true →
          Mutation.applyToLocalView (.delete key pre) md b t =
            .ok (some (.noDoc key SnapshotVersion.forDeletedDoc))) ∧
       (pre.isValidFor md = false →
          Mutation.applyToLocalView (.delete key pre) md b t = .ok md)) ∧
    SnapshotVersion.forDeletedDoc ≠ SnapshotVersion.MIN := by
  refine ⟨?_, ?_, by decide⟩
  · intro key pre md res hk ht
    simp [Mutation.applyToRemoteDocument, hk, ht]
  · intro key pre md b t hk
    constructor
    · intro hv
      simp [Mutation.applyToLocalView, hk, hv]
    · intro hv
      simp [Mutation.applyToLocalView, hk, hv]

/-- C3 amended witness: both delete paths at concrete inputs. -/
theorem deleteMutation_apply_spec_witness :
    Mutation.applyToRemoteDocument (.delete 0 (.exists_ true)) Option.none
        (.mk Option.none Option.none) =
      .ok (some (.noDoc 0 SnapshotVersion.MIN)) ∧
    Mutation.applyToLocalView (.delete 0 .none) Option.none Option.none 0 =
      .ok (some (.noDoc 0 SnapshotVersion.forDeletedDoc)) :=
  ⟨deleteMutation_apply_spec.1 0 (.exists_ true) Option.none
      (.mk Option.none Option.none) rfl rfl,
   (deleteMutation_apply_spec.2.1 0 .none Option.none Option.none 0 rfl).1 rfl⟩

/-! ### Idempotence of `applyToLocalView` (per mutation variant) -/

theorem verifyKeyMatches_doc_self (key : DocumentKey) (v : SnapshotVersion)
    (d : ObjectValue) (hlm : Bool) :
    verifyKeyMatches key (some (.doc key v d hlm)) = true := by
  simp [verifyKeyMatches, MaybeDocument.key]

theorem verifyKeyMatches_noDoc_self (key : DocumentKey) (v : SnapshotVersion) :
    verifyKeyMatches key (some (.noDoc key v)) = true := by
  simp [verifyKeyMatches, MaybeDocument.key]

theorem set_applyToLocalView_idem {key : DocumentKey} {value : ObjectValue}
    {pre : Precondition} {md b : Option MaybeDocument} {t : Timestamp}
    {r : Option MaybeDocument}
    (h : Mutation.applyToLocalView (.set key value pre) md b t = .ok r) :
    Mutation.applyToLocalView (.set key value pre) r b t = .ok r := by
  simp only [Mutation.applyToLocalView] at h ⊢
  by_cases hk : verifyKeyMatches key md = true
  · rw [if_pos hk] at h
    by_cases hv : pre.isValidFor md = true
    · rw [if_pos hv] at h
      have hr : r = some (.doc key (getPostMutationVersion md) value true) :=
        (Except.ok.inj h).symm
      subst hr
      cases pre with
      | none =>
        simp [verifyKeyMatches, MaybeDocument.key, Precondition.isValidFor,
          getPostMutationVersion]
      | exists_ flag =>
        cases flag with
        | true =>
          simp [verifyKeyMatches, MaybeDocument.key, Precondition.isValidFor,
            getPostMutationVersion]
        | false =>
          simp [verifyKeyMatches, MaybeDocument.key, Precondition.isValidFor]
      | updateTime vv =>
        cases md with
        | none => exact absurd hv (by simp [Precondition.isValidFor])
        | some d0 =>
          cases d0 with
          | noDoc k2 v2 => exact absurd hv (by simp [Precondition.isValidFor])
          | doc k2 ver2 d2 h2 =>
            have hvv : ver2.isEqual vv = true := hv
            simp [verifyKeyMatches, MaybeDocument.key, Precondition.isValidFor,
              getPostMutationVersion, hvv]
    · rw [if_neg hv] at h
      have hr : r = md := (Except.ok.inj h).symm
      subst hr
      rw [if_pos hk, if_neg hv]
  · rw [if_neg hk] at h
    exact Except.noConfusion h

theorem patch_applyToLocalView_idem {key : DocumentKey} {data : ObjectValue}
    {mask : FieldMask} {pre : Precondition} {md b : Option MaybeDocument}
    {t : Timestamp} {r : Option MaybeDocument}
    (h : Mutation.applyToLocalView (.patch key data mask pre) md b t = .ok r) :
    Mutation.applyToLocalView (.patch key data mask pre) r b t = .ok r := by
  simp only [Mutation.applyToLocalView] at h ⊢
  by_cases hk : verifyKeyMatches key md = true
  · rw [if_pos hk] at h
    by_cases hv : pre.isValidFor md = true
    · rw [if_pos hv] at h
      have hr : r = some (.doc key (getPostMutationVersion md)
          (patchDocument data mask md) true) :=
        (Except.ok.inj h).symm
      subst hr
      have hpatch : ∀ ver : SnapshotVersion,
          patchDocument data mask
            (some (.doc key ver (patchDocument data mask md) true)) =
          patchDocument data mask md := by
        intro ver
        simp only [patchDocument]
        exact patchObject_idem data mask _
      cases pre with
      | none =>
        simp [verifyKeyMatches, MaybeDocument.key, Precondition.isValidFor,
          getPostMutationVersion, hpatch]
      | exists_ flag =>
        cases flag with
        | true =>
          simp [verifyKeyMatches, MaybeDocument.key, Precondition.isValidFor,
            getPostMutationVersion, hpatch]
        | false =>
          simp [verifyKeyMatches, MaybeDocument.key, Precondition.isValidFor]
      | updateTime vv =>
        cases md with
        | none => exact absurd hv (by simp [Precondition.isValidFor])
        | some d0 =>
          cases d0 with
          | noDoc k2 v2 => exact absurd hv (by simp [Precondition.isValidFor])
          | doc k2 ver2 d2 h2 =>
            have hvv : ver2.isEqual vv = true := hv
            simp [verifyKeyMatches, MaybeDocument.key, Precondition.isValidFor,
              getPostMutationVersion, hvv, hpatch]
    · rw [if_neg hv] at h
      have hr : r = md := (Except.ok.inj h).symm
      subst hr
      rw [if_pos hk, if_neg hv]
  · rw [if_neg hk] at h
    exact Except.noConfusion h

theorem transform_applyToLocalView_idem {key : DocumentKey}
    {fts : List FieldTransform} {md b : Option MaybeDocument} {t : Timestamp}
    {r : Option MaybeDocument}
    (h : Mutation.applyToLocalView (.transform key fts) md b t = .ok r) :
    Mutation.applyToLocalView (.transform key fts) r b t = .ok r := by
  simp only [Mutation.applyToLocalView] at h ⊢
  by_cases hk : verifyKeyMatches key md = true
  · rw [if_pos hk] at h
    by_cases hv : (Precondition.exists_ true).isValidFor md = true
    · rw [if_pos hv] at h
      cases md with
      | none => exact absurd hv (by simp [Precondition.isValidFor])
      | some d0 =>
        cases d0 with
        | noDoc k2 v2 => exact absurd hv (by simp [Precondition.isValidFor])
        | doc k2 ver2 d2 h2 =>
          have hk2 : k2 = key := by
            simpa [verifyKeyMatches, MaybeDocument.key] using hk
          subst hk2
          have hreq : requireDocument k2 (some (.doc k2 ver2 d2 h2)) =
              .ok (ver2, d2) := by
            simp [requireDocument]
          simp only [hreq] at h
          cases hto : transformObject fts d2 (localTransformResults fts t b) with
          | error e =>
            simp only [hto] at h
            exact Except.noConfusion h
          | ok newData =>
            simp only [hto] at h
            have hr : r = some (.doc k2 ver2 newData true) :=
              (Except.ok.inj h).symm
            subst hr
            have hreq2 : requireDocument k2 (some (.doc k2 ver2 newData true)) =
                .ok (ver2, newData) := by
              simp [requireDocument]
            simp [verifyKeyMatches, MaybeDocument.key, Precondition.isValidFor,
              hreq2, transformObject_idem hto]
    · rw [if_neg hv] at h
      have hr : r = md := (Except.ok.inj h).symm
      subst hr
      rw [if_pos hk, if_neg hv]
  · rw [if_neg hk] at h
    exact Except.noConfusion h

theorem delete_applyToLocalView_idem {key : DocumentKey} {pre : Precondition}
    {md b : Option MaybeDocument} {t : Timestamp} {r : Option MaybeDocument}
    (h : Mutation.applyToLocalView (.delete key pre) md b t = .ok r) :
    Mutation.applyToLocalView (.delete key pre) r b t = .ok r := by
  simp only [Mutation.applyToLocalView] at h ⊢
  by_cases hk : verifyKeyMatches key md = true
  · rw [if_pos hk] at h
    by_cases hv : pre.isValidFor md = true
    · rw [if_pos hv, if_pos hk] at h
      have hr : r = some (.noDoc key SnapshotVersion.forDeletedDoc) :=
        (Except.ok.inj h).symm
      subst hr
      cases pre with
      | none =>
        simp [verifyKeyMatches, MaybeDocument.key, Precondition.isValidFor]
      | exists_ flag =>
        cases flag with
        | true =>
          simp [verifyKeyMatches, MaybeDocument.key, Precondition.isValidFor]
        | false =>
          simp [verifyKeyMatches, MaybeDocument.key, Precondition.isValidFor]
      | updateTime vv =>
        simp [verifyKeyMatches, MaybeDocument.key, Precondition.isValidFor]
    · rw [if_neg hv] at h
      have hr : r = md := (Except.ok.inj h).symm
      subst hr
      rw [if_pos hk, if_neg hv]
  · rw [if_neg hk] at h
    exact Except.noConfusion h

/-- C8: `applyToLocalView` is idempotent for every mutation kind — re-applying
a mutation (with the same base document and local write time) to its own
output reproduces that output. -/
theorem applyToLocalView_idempotent :
    ∀ (m : Mutation) (md b : Option MaybeDocument) (t : Timestamp)
      (r : Option MaybeDocument),
      Mutation.applyToLocalView m md b t = .ok r →
      Mutation.applyToLocalView m r b t = .ok r := by
  intro m md b t r h
  cases m with
  | set key value pre => exact set_applyToLocalView_idem h
  | patch key data mask pre => exact patch_applyToLocalView_idem h
  | transform key fts => exact transform_applyToLocalView_idem h
  | delete key pre => exact delete_applyToLocalView_idem h

/-- C8 witness: re-applying a set mutation to its own local output. -/
theorem applyToLocalView_idempotent_witness :
    Mutation.applyToLocalView (.set 0 ObjectValue.EMPTY .none)
        (some (.doc 0 SnapshotVersion.MIN ObjectValue.EMPTY true)) Option.none 0 =
      .ok (some (.doc 0 SnapshotVersion.MIN ObjectValue.EMPTY true)) :=
  applyToLocalView_idempotent (.set 0 ObjectValue.EMPTY .none) Option.none
    Option.none 0 (some (.doc 0 SnapshotVersion.MIN ObjectValue.EMPTY true))
    (by decide)

end Firestore
